import Mathlib

/-!
# Verification of the duolingo_anki pipeline

Shallow embedding of the four scripts of the repository
(`fetch_duolingo_lexemes.py`, `download_audio_files.py`,
`add_audio_file_references.py`, `combine_vocabulary_and_audio_file_links.py`)
together with theorems settling the frozen claims C1..C10.

Strings are modelled as `List Char` so that the character-level behaviour of
the Python string and `urllib.parse` operations can be reasoned about directly.
-/

set_option autoImplicit false

namespace DuolingoAnki

abbrev Chars := List Char

/-! ## Generic list lemmas used throughout -/

theorem takeWhile_append_cons_of_neg {α : Type} (p : α → Bool) (xs : List α) (y : α)
    (ys : List α) (h : p y = false) :
    (xs ++ y :: ys).takeWhile p = xs.takeWhile p := by
  induction xs with
  | nil => simp [List.takeWhile, h]
  | cons x xs ih =>
    simp only [List.cons_append, List.takeWhile]
    cases p x <;> simp [ih]

theorem dropWhile_append_cons_of_neg {α : Type} (p : α → Bool) (xs : List α) (y : α)
    (ys : List α) (h : p y = false) :
    (xs ++ y :: ys).dropWhile p = xs.dropWhile p ++ y :: ys := by
  induction xs with
  | nil => simp [List.dropWhile, h]
  | cons x xs ih =>
    simp only [List.cons_append, List.dropWhile]
    cases p x <;> simp [ih]

theorem takeWhile_eq_self_of_all {α : Type} (p : α → Bool) (xs : List α)
    (h : ∀ x ∈ xs, p x = true) : xs.takeWhile p = xs := by
  induction xs with
  | nil => rfl
  | cons x xs ih =>
    simp only [List.takeWhile, h x (List.mem_cons_self x xs)]
    exact congrArg (x :: ·) (ih fun a ha => h a (List.mem_cons_of_mem x ha))

theorem dropWhile_eq_nil_of_all {α : Type} (p : α → Bool) (xs : List α)
    (h : ∀ x ∈ xs, p x = true) : xs.dropWhile p = [] := by
  induction xs with
  | nil => rfl
  | cons x xs ih =>
    simp only [List.dropWhile, h x (List.mem_cons_self x xs)]
    exact ih fun a ha => h a (List.mem_cons_of_mem x ha)

theorem mem_of_mem_takeWhile {α : Type} (p : α → Bool) (xs : List α) (a : α)
    (h : a ∈ xs.takeWhile p) : a ∈ xs := by
  induction xs with
  | nil => simp [List.takeWhile] at h
  | cons x xs ih =>
    simp only [List.takeWhile] at h
    cases hp : p x with
    | false => simp [hp] at h
    | true =>
      rw [hp] at h
      rcases List.mem_cons.mp h with h | h
      · exact h ▸ List.mem_cons_self x xs
      · exact List.mem_cons_of_mem x (ih h)

theorem prop_of_mem_takeWhile {α : Type} (p : α → Bool) (xs : List α) (a : α)
    (h : a ∈ xs.takeWhile p) : p a = true := by
  induction xs with
  | nil => simp [List.takeWhile] at h
  | cons x xs ih =>
    simp only [List.takeWhile] at h
    cases hp : p x with
    | false => simp [hp] at h
    | true =>
      rw [hp] at h
      rcases List.mem_cons.mp h with h | h
      · exact h ▸ hp
      · exact ih h

theorem takeWhile_append_of_all {α : Type} (p : α → Bool) (xs ys : List α)
    (h : ∀ x ∈ xs, p x = true) : (xs ++ ys).takeWhile p = xs ++ ys.takeWhile p := by
  induction xs with
  | nil => rfl
  | cons x xs ih =>
    simp only [List.cons_append, List.takeWhile, h x (List.mem_cons_self x xs)]
    exact congrArg (x :: ·) (ih fun a ha => h a (List.mem_cons_of_mem x ha))

theorem dropWhile_append_of_all {α : Type} (p : α → Bool) (xs ys : List α)
    (h : ∀ x ∈ xs, p x = true) : (xs ++ ys).dropWhile p = ys.dropWhile p := by
  induction xs with
  | nil => rfl
  | cons x xs ih =>
    simp only [List.cons_append, List.dropWhile, h x (List.mem_cons_self x xs)]
    exact ih fun a ha => h a (List.mem_cons_of_mem x ha)

theorem mem_of_mem_dropWhile {α : Type} (p : α → Bool) (xs : List α) (a : α)
    (h : a ∈ xs.dropWhile p) : a ∈ xs := by
  induction xs with
  | nil => simp [List.dropWhile] at h
  | cons x xs ih =>
    simp only [List.dropWhile] at h
    cases hp : p x with
    | false => rw [hp] at h; exact h
    | true => rw [hp] at h; exact List.mem_cons_of_mem x (ih h)

theorem isPrefixOf_append_self : ∀ a b : Chars, a.isPrefixOf (a ++ b) = true
  | [], _ => by simp [List.isPrefixOf]
  | c :: a, b => by simp [List.isPrefixOf, isPrefixOf_append_self a b]

theorem isSuffixOf_append_self (a b : Chars) : a.isSuffixOf (b ++ a) = true := by
  simp only [List.isSuffixOf, List.reverse_append]
  exact isPrefixOf_append_self a.reverse b.reverse

theorem takeWhile_append_dropWhile_self {α : Type} (p : α → Bool) (xs : List α) :
    xs.takeWhile p ++ xs.dropWhile p = xs := by
  induction xs with
  | nil => rfl
  | cons x xs ih =>
    simp only [List.takeWhile, List.dropWhile]
    cases p x <;> simp [ih]

theorem head_prop_of_dropWhile_cons {α : Type} (p : α → Bool) (xs : List α) (y : α)
    (ys : List α) (h : xs.dropWhile p = y :: ys) : p y = false := by
  induction xs with
  | nil => simp [List.dropWhile] at h
  | cons x xs ih =>
    simp only [List.dropWhile] at h
    cases hp : p x with
    | false => rw [hp] at h; cases h; exact hp
    | true => rw [hp] at h; exact ih h

/-! ## Model of `urllib.parse.urlparse` (CPython `urlsplit` + params split)

Only the pieces the repository uses are modelled: the leading
control-character strip, the removal of tab/CR/LF, the scheme split, the
netloc split, the fragment and query splits, and `urlparse`'s params split.
The IPv6 bracketed-host validation (which can raise `ValueError`) is omitted:
no claim involves bracketed hosts. -/

/-- Characters CPython's `urlsplit` deletes anywhere in the URL. -/
def unsafeURLChar (c : Char) : Bool := c = '\t' || c = '\r' || c = '\n'

/-- WHATWG C0 control characters and space, stripped from the front. -/
def c0OrSpace (c : Char) : Bool := c.toNat ≤ 32

def lstripControl (s : Chars) : Chars := s.dropWhile c0OrSpace

def removeUnsafeChars (s : Chars) : Chars := s.filter (fun c => !unsafeURLChar c)

/-- Characters allowed in a URL scheme. -/
def schemeChar (c : Char) : Bool := c.isAlpha || c.isDigit || c = '+' || c = '-' || c = '.'

/-- Continuation of the scheme split, given `pre`/`rest` as the parts of the
URL before and from the first colon. -/
def splitSchemeAux (s pre : Chars) : Chars → Chars × Chars
  | [] => ([], s)
  | _ :: tail =>
    match pre with
    | [] => ([], s)
    | c0 :: _ =>
      if c0.isAlpha && pre.all schemeChar then (pre.map Char.toLower, tail) else ([], s)

/-- Split an optional scheme off the front: the prefix before the first colon
must be nonempty, start with an ASCII letter and consist of scheme characters. -/
def splitScheme (s : Chars) : Chars × Chars :=
  splitSchemeAux s (s.takeWhile (fun c => c ≠ ':')) (s.dropWhile (fun c => c ≠ ':'))

/-- A character that does not terminate the netloc. -/
def netlocChar (c : Char) : Bool := !(c = '/' || c = '?' || c = '#')

structure UrlSplitResult where
  scheme : Chars
  netloc : Chars
  path : Chars
  query : Chars
  fragment : Chars
deriving DecidableEq

/-- The URL after the leading strip and the tab/CR/LF removal. -/
def preprocessURL (url0 : Chars) : Chars := removeUnsafeChars (lstripControl url0)

/-- The URL remainder after the scheme split. -/
def afterScheme (url0 : Chars) : Chars := (splitScheme (preprocessURL url0)).2

/-- The URL remainder after the netloc split (`_splitnetloc`). -/
def afterNetloc (url0 : Chars) : Chars :=
  let u2 := afterScheme url0
  if u2.take 2 = ['/', '/'] then (u2.drop 2).dropWhile netlocChar else u2

/-- Model of CPython `urllib.parse.urlsplit`: strip/remove, scheme split,
netloc split (when the remainder starts with `//`), then the fragment split at
the first `#` and the query split at the first `?`. -/
def urlsplitModel (url0 : Chars) : UrlSplitResult :=
  let u2 := afterScheme url0
  let u3 := afterNetloc url0
  ⟨(splitScheme (preprocessURL url0)).1,
    if u2.take 2 = ['/', '/'] then (u2.drop 2).takeWhile netlocChar else [],
    ((u3.takeWhile (fun c => c ≠ '#')).takeWhile (fun c => c ≠ '?')),
    ((u3.takeWhile (fun c => c ≠ '#')).dropWhile (fun c => c ≠ '?')).drop 1,
    (u3.dropWhile (fun c => c ≠ '#')).drop 1⟩

/-- `s.split(c)[-1]`: the part after the last occurrence of `c`. -/
def lastSlashSegment (s : Chars) : Chars := (s.reverse.takeWhile (fun c => c ≠ '/')).reverse

/-- The part of `s` up to and including the last `/` (empty if there is none). -/
def beforeLastSlashSegment (s : Chars) : Chars :=
  (s.reverse.dropWhile (fun c => c ≠ '/')).reverse

/-- The schemes for which `urlparse` performs the params split. -/
def usesParamsSchemes : List Chars :=
  [[], "ftp".toList, "hdl".toList, "prospero".toList, "http".toList, "imap".toList,
    "https".toList, "shttp".toList, "rtsp".toList, "rtspu".toList, "sip".toList,
    "sips".toList, "mms".toList, "sftp".toList, "tel".toList]

/-- `urlparse`'s `_splitparams`: split the last path segment at its first `;`. -/
def splitParams (p : Chars) : Chars × Chars :=
  let pre := beforeLastSlashSegment p
  let seg := lastSlashSegment p
  (pre ++ seg.takeWhile (fun c => c ≠ ';'), (seg.dropWhile (fun c => c ≠ ';')).drop 1)

/-- The `.path` attribute of `urllib.parse.urlparse(url)`. -/
def urlparsePath (url : Chars) : Chars :=
  let r := urlsplitModel url
  if r.scheme ∈ usesParamsSchemes then (splitParams r.path).1 else r.path

/-! ## Filename derivation (`extract_filename_from_url`)

The identical function appears in `download_audio_files.py` and
`fetch_duolingo_lexemes.py`; `add_audio_file_references.py` has a variant that
first strips the URL and returns `""` for blank input. -/

def mp3Ext : Chars := ".mp3".toList

def endsWithMp3 (f : Chars) : Bool := mp3Ext.isSuffixOf (f.map Char.toLower)

/-- `extract_filename_from_url` of `download_audio_files.py` /
`fetch_duolingo_lexemes.py`: last path segment, `.mp3` appended if absent. -/
def extract_filename_from_url (url : Chars) : Chars :=
  let filename := lastSlashSegment (urlparsePath url)
  if endsWithMp3 filename then filename else filename ++ mp3Ext

/-- Python `str.strip()` whitespace (the ASCII part). -/
def pySpace (c : Char) : Bool :=
  c = ' ' || c = '\t' || c = '\n' || c = '\r' || c = '\x0b' || c = '\x0c'

def pyStrip (s : Chars) : Chars :=
  ((s.dropWhile pySpace).reverse.dropWhile pySpace).reverse

/-- `extract_filename_from_url` of `add_audio_file_references.py`: returns `""`
for blank input, otherwise derives from the stripped URL. -/
def extract_filename_from_url_ref (url : Chars) : Chars :=
  if pyStrip url = [] then [] else extract_filename_from_url (pyStrip url)

/-! ## Anki sound references (`add_audio_file_references.py`) -/

def soundMarker : Chars := "[sound:".toList

/-- `create_anki_sound_reference`. -/
def create_anki_sound_reference (filename : Chars) : Chars :=
  if filename = [] then [] else soundMarker ++ filename ++ [']']

/-- Modelled from the spec: the repository defines no inverse of the playback
reference syntax, but the round-trip property of §8.3 needs one; following the
glossary's `[sound:<filename>]` convention, strip the leading marker and the
trailing bracket. -/
def extract_sound_filename (s : Chars) : Option Chars :=
  if soundMarker.isPrefixOf s && [']'].isSuffixOf s && decide (8 ≤ s.length) then
    some ((s.drop 7).dropLast)
  else none

/-! ## Download retry models

`Outcome` is the result of one simulated delivery attempt; a trace records the
returned boolean, the sleeps performed (in seconds, in order) and the number
of attempts made. -/

inductive Outcome where
  | success : Outcome
  | httpError : Nat → Outcome
  | urlError : Outcome
  | otherError : Outcome
deriving DecidableEq

structure DownloadTrace where
  ok : Bool
  sleeps : List Nat
  attempts : Nat
deriving DecidableEq

/-- HTTP statuses `download_with_backoff` retries: 429 and 5xx. -/
def retryableCode (c : Nat) : Bool := c == 429 || (decide (500 ≤ c) && decide (c < 600))

/-- Loop body of `download_with_backoff` (`download_audio_files.py`):
`for attempt in range(max_retries + 1)`, waiting `2 ** attempt + 1` seconds on
429/5xx and network errors, aborting at once on other HTTP errors. -/
def download_with_backoff_go (resp : Nat → Outcome) (attempt : Nat) : Nat → DownloadTrace
  | 0 => ⟨false, [], 0⟩
  | fuel + 1 =>
    match resp attempt with
    | .success => ⟨true, [], 1⟩
    | .httpError c =>
      if retryableCode c then
        let rest := download_with_backoff_go resp (attempt + 1) fuel
        ⟨rest.ok, (2 ^ attempt + 1) :: rest.sleeps, rest.attempts + 1⟩
      else ⟨false, [], 1⟩
    | .urlError =>
      let rest := download_with_backoff_go resp (attempt + 1) fuel
      ⟨rest.ok, (2 ^ attempt + 1) :: rest.sleeps, rest.attempts + 1⟩
    | .otherError => ⟨false, [], 1⟩

/-- `download_with_backoff(url, filepath, max_retries)`; the source default for
`max_retries` is 5. -/
def download_with_backoff (resp : Nat → Outcome) (maxRetries : Nat) : DownloadTrace :=
  download_with_backoff_go resp 0 (maxRetries + 1)

/-- Loop body of `download_audio_file` (`fetch_duolingo_lexemes.py`): every
exception is retried alike, sleeping `2 ** attempt` seconds, except on the
final attempt. -/
def download_audio_file_go (resp : Nat → Outcome) (maxRetries attempt : Nat) :
    Nat → DownloadTrace
  | 0 => ⟨false, [], 0⟩
  | fuel + 1 =>
    match resp attempt with
    | .success => ⟨true, [], 1⟩
    | _ =>
      if attempt < maxRetries - 1 then
        let rest := download_audio_file_go resp maxRetries (attempt + 1) fuel
        ⟨rest.ok, 2 ^ attempt :: rest.sleeps, rest.attempts + 1⟩
      else ⟨false, [], 1⟩

/-- `download_audio_file(url, filepath, max_retries)`; the source default for
`max_retries` is 3. -/
def download_audio_file (resp : Nat → Outcome) (maxRetries : Nat) : DownloadTrace :=
  download_audio_file_go resp maxRetries 0 maxRetries

/-! ## Paginated fetch (`fetch_all_lexemes`, `fetch_duolingo_lexemes.py`) -/

/-- A service response: the record list may sit under `lexemes` or `results`. -/
structure ApiResponse (α : Type) where
  lexemes : Option (List α)
  results : Option (List α)

/-- Record extraction from one response: `lexemes` first, then `results`,
defaulting to the empty list. -/
def responseRecords {α : Type} (r : ApiResponse α) : List α :=
  match r.lexemes with
  | some l => l
  | none =>
    match r.results with
    | some l => l
    | none => []

/-- The `while True` pagination loop, made total with an explicit fuel bound
(the source loop is unbounded).  `service` maps a `startIndex` to the response
of the call issued at that offset.  Returns the accumulated records and the
number of calls issued. -/
def fetch_all_lexemes_go {α : Type} (service : Nat → ApiResponse α) (limit startIndex : Nat) :
    Nat → List α × Nat
  | 0 => ([], 0)
  | fuel + 1 =>
    let lexemes := responseRecords (service startIndex)
    if lexemes.isEmpty then ([], 1)
    else if lexemes.length < limit then (lexemes, 1)
    else
      let rest := fetch_all_lexemes_go service limit (startIndex + limit) fuel
      (lexemes ++ rest.1, rest.2 + 1)

/-- `fetch_all_lexemes(base_url, headers, post_data, limit)`. -/
def fetch_all_lexemes {α : Type} (service : Nat → ApiResponse α) (limit fuel : Nat) :
    List α × Nat :=
  fetch_all_lexemes_go service limit 0 fuel

/-! ## Record extraction (`extract_lexeme_data`, `fetch_duolingo_lexemes.py`)

A `RemoteRecord` is an untyped JSON-like document.  The Python dictionary and
sequence operations the function uses are modelled with their exception
behaviour (`Except Unit`): `dict.get` raises `AttributeError` on a non-dict,
`x[0]` raises on empty lists/strings and on non-sequences, and so on. -/

inductive JVal where
  | str : String → JVal
  | int : Int → JVal
  | list : List JVal → JVal
  | obj : List (String × JVal) → JVal
  | null : JVal

/-- First binding of `key` in an association list (Python dicts have unique
keys, so this is the dict lookup). -/
def jlookup : List (String × JVal) → String → Option JVal
  | [], _ => none
  | (k, v) :: rest, key => if k = key then some v else jlookup rest key

/-- Python truthiness of a value. -/
def truthy : JVal → Bool
  | .str s => s ≠ ""
  | .int n => n ≠ 0
  | .list l => !l.isEmpty
  | .obj fs => !fs.isEmpty
  | .null => false

/-- `v.get(key, dflt)`: `AttributeError` unless `v` is a dict. -/
def dictGet : JVal → String → JVal → Except Unit JVal
  | .obj fs, key, dflt => .ok ((jlookup fs key).getD dflt)
  | _, _, _ => .error ()

/-- Is the needle string `==` to a list element (Python `in` on a list)? -/
def eqStr (key : String) : JVal → Bool
  | .str s => s = key
  | _ => false

/-- Substring test (Python `in` on strings). -/
def charsHasSub (needle : Chars) : Chars → Bool
  | [] => needle.isEmpty
  | c :: rest => needle.isPrefixOf (c :: rest) || charsHasSub needle rest

/-- `key in v`: key test on dicts, membership on lists, substring test on
strings, `TypeError` otherwise. -/
def pyContains (key : String) : JVal → Except Unit Bool
  | .obj fs => .ok (jlookup fs key).isSome
  | .list l => .ok (l.any (eqStr key))
  | .str s => .ok (charsHasSub key.toList s.toList)
  | _ => .error ()

/-- `v[key]`: `KeyError` if missing, `TypeError` on non-dicts. -/
def pySubscript : JVal → String → Except Unit JVal
  | .obj fs, key =>
    match jlookup fs key with
    | some v => .ok v
    | none => .error ()
  | _, _ => .error ()

/-- `v[0]`: head of a nonempty list, first character of a nonempty string,
raises otherwise. -/
def pyIndexZero : JVal → Except Unit JVal
  | .list (x :: _) => .ok x
  | .str s => if s = "" then .error () else .ok (.str s.front.toString)
  | _ => .error ()

/-- Python `a or b` with the right operand evaluated lazily. -/
def pyOrElse (a : JVal) (b : Except Unit JVal) : Except Unit JVal :=
  if truthy a then .ok a else b

structure LexemeTriple where
  word : JVal
  translation : JVal
  audio_url : JVal

/-- The `word` line:
`lexeme.get('lexeme', {}).get('word', '') or lexeme.get('word', '') or
lexeme.get('learningWord', '')`, with `lx` the already computed
`lexeme.get('lexeme', {})`. -/
def wordExpr (lexeme lx : JVal) : Except Unit JVal :=
  dictGet lx "word" (.str "") >>= fun w1 =>
  pyOrElse w1 (dictGet lexeme "word" (.str "") >>= fun w2 =>
    pyOrElse w2 (dictGet lexeme "learningWord" (.str "")))

/-- The `translation` line, including the
`lexeme.get('translations', [''])[0]` final fallback. -/
def translationExpr (lexeme lx : JVal) : Except Unit JVal :=
  dictGet lx "translation" (.str "") >>= fun t1 =>
  pyOrElse t1 (dictGet lexeme "translation" (.str "") >>= fun t2 =>
    pyOrElse t2 (dictGet lexeme "translations" (.list [.str ""]) >>= pyIndexZero))

/-- The `audio_url` if/elif chain. -/
def audioExpr (lexeme : JVal) : Except Unit JVal := do
  let hasLex ← pyContains "lexeme" lexeme
  let c1 ← if hasLex then do
      let lxv ← pySubscript lexeme "lexeme"
      pyContains "audio" lxv
    else pure false
  if c1 then do
    let lxv ← pySubscript lexeme "lexeme"
    pySubscript lxv "audio"
  else do
    let hasAudio ← pyContains "audio" lexeme
    if hasAudio then pySubscript lexeme "audio"
    else do
      let hasTts ← pyContains "tts" lexeme
      if hasTts then pySubscript lexeme "tts"
      else do
        let c4 ← if hasLex then do
            let lxv ← pySubscript lexeme "lexeme"
            pyContains "tts" lxv
          else pure false
        if c4 then do
          let lxv ← pySubscript lexeme "lexeme"
          pySubscript lxv "tts"
        else pure (.str "")

/-- `extract_lexeme_data(lexeme)`, with Python's evaluation order and
short-circuiting preserved (the repeated `lexeme.get('lexeme', {})` is bound
once: it has no side effects). -/
def extract_lexeme_data (lexeme : JVal) : Except Unit LexemeTriple := do
  let lx ← dictGet lexeme "lexeme" (.obj [])
  let word ← wordExpr lexeme lx
  let translation ← translationExpr lexeme lx
  let audio ← audioExpr lexeme
  pure ⟨word, translation, audio⟩

/-! Independent characterization of when extraction raises, for the amended
claim C4: the `lexeme` key bound to a non-dict, or — with both direct
translation lookups falsy — a `translations` key bound to a value that has no
element at index 0. -/

def indexableAtZero : JVal → Bool
  | .list (_ :: _) => true
  | .str s => s ≠ ""
  | _ => false

def isObjJ : JVal → Bool
  | .obj _ => true
  | _ => false

/-- The fields of the nested `lexeme` dict (empty when absent or not a dict). -/
def lexObjFields (fields : List (String × JVal)) : List (String × JVal) :=
  match jlookup fields "lexeme" with
  | some (.obj fs) => fs
  | _ => []

def lexemeFieldBad (fields : List (String × JVal)) : Bool :=
  match jlookup fields "lexeme" with
  | some v => !isObjJ v
  | none => false

def translationsBad (fields : List (String × JVal)) : Bool :=
  let t1 := (jlookup (lexObjFields fields) "translation").getD (.str "")
  let t2 := (jlookup fields "translation").getD (.str "")
  if truthy t1 || truthy t2 then false
  else
    match jlookup fields "translations" with
    | some t => !indexableAtZero t
    | none => false

def extractionRaises (fields : List (String × JVal)) : Bool :=
  lexemeFieldBad fields || translationsBad fields

/-! ## Audio download driver (`download_all_audio_files`,
`fetch_duolingo_lexemes.py`)

The filesystem is a list of existing file paths; `dl url` tells whether the
network download of `url` succeeds (writing the file).  The cache entry is
recorded *before* the existence check and the download attempt. -/

structure LexemeData where
  word : Chars
  translation : Chars
  audio_url : Chars
deriving DecidableEq

structure DownloadState where
  cache : List (Chars × Chars)
  disk : List Chars
  downloaded : Nat
  skipped : Nat
  failed : Nat
deriving DecidableEq

/-- Python dict assignment `cache[url] = fn`: replace if present else append. -/
def cacheInsert (cache : List (Chars × Chars)) (url fn : Chars) : List (Chars × Chars) :=
  if cache.any (fun p => p.1 == url) then
    cache.map (fun p => if p.1 == url then (p.1, fn) else p)
  else cache ++ [(url, fn)]

def pathJoin (folder fn : Chars) : Chars := folder ++ ['/'] ++ fn

/-- One iteration of the `for i, data in enumerate(lexeme_data_list, 1)` loop. -/
def download_all_audio_files_step (dl : Chars → Bool) (folder : Chars)
    (st : DownloadState) (d : LexemeData) : DownloadState :=
  if d.audio_url.isEmpty then st
  else
    let fn := extract_filename_from_url d.audio_url
    let fp := pathJoin folder fn
    let st1 := { st with cache := cacheInsert st.cache d.audio_url fn }
    if fp ∈ st1.disk then { st1 with skipped := st1.skipped + 1 }
    else if dl d.audio_url then
      { st1 with disk := st1.disk ++ [fp], downloaded := st1.downloaded + 1 }
    else { st1 with failed := st1.failed + 1 }

/-- `download_all_audio_files(lexeme_data_list, audio_folder)`: the state when
`create_anki_csv` subsequently reads `url_to_filename`. -/
def download_all_audio_files (dl : Chars → Bool) (folder : Chars)
    (entries : List LexemeData) (st0 : DownloadState) : DownloadState :=
  entries.foldl (download_all_audio_files_step dl folder) st0

/-! ## CSV merge (`combine_vocabulary_and_audio_file_links.py`) -/

abbrev Row := List Chars

def audioColName : Chars := "audio_file_link".toList

/-- `[line.strip() for line in f if line.strip()]`. -/
def stripLines (lines : List Chars) : List Chars :=
  lines.filterMap (fun l => if pyStrip l = [] then none else some (pyStrip l))

/-- The `for i, row in enumerate(csv_reader)` loop of
`merge_vocabulary_with_audio_links`. -/
def mergeRows (links : List Chars) : Nat → List Row → List Row
  | _, [] => []
  | i, row :: rest =>
    (if i = 0 then row ++ [audioColName] else row ++ [links.getD (i - 1) []]) ::
      mergeRows links (i + 1) rest

/-- `merge_vocabulary_with_audio_links(csv_file, txt_file, output_file)`:
returns the output rows and whether the row/link count mismatch note is
printed. -/
def merge_vocabulary_with_audio_links (csvRows : List Row) (txtLines : List Chars) :
    List Row × Bool :=
  let links := stripLines txtLines
  (mergeRows links 0 csvRows,
    decide ((csvRows.length : Int) - 1 ≠ (links.length : Int)))

/-! ## CSV rewrite (`convert_csv_to_anki_format`, `add_audio_file_references.py`)

`priorOutput` is the content the output file had before the run; the function
returns the content it has afterwards, plus whether the conversion ran (the
output file is opened with mode `w`, which truncates it before the header is
even examined, and the header row itself is never written back). -/

def padTo (row : Row) (idx : Nat) : Row := row ++ List.replicate (idx + 1 - row.length) []

/-- The per-row body of the conversion loop. -/
def convertRow (idx : Nat) (row : Row) : Row :=
  let padded := padTo row idx
  let cell := pyStrip (padded.getD idx [])
  padded.set idx
    (if cell = [] then [] else create_anki_sound_reference (extract_filename_from_url_ref cell))

/-- `convert_csv_to_anki_format(input_csv, output_csv)`. -/
def convert_csv_to_anki_format (inputRows : List Row) (priorOutput : List Row) :
    List Row × Bool :=
  match inputRows with
  | [] => ([], false)
  | header :: dataRows =>
    match header.findIdx? (fun h => h == audioColName) with
    | none => ([], false)
    | some idx => (dataRows.map (convertRow idx), true)

/-! ## Claims -/

/-- C2: for one URL whose simulated download attempts yield HTTP 429, 429 and
then 200, `download_with_backoff` (with its source default of 5 retries)
sleeps exactly twice, with waits `2 ^ attempt + 1` seconds — 2 then 3,
strictly increasing — and returns success after the third attempt. -/
theorem download_with_backoff_retries_429 (resp : Nat → Outcome)
    (h0 : resp 0 = .httpError 429) (h1 : resp 1 = .httpError 429)
    (h2 : resp 2 = .success) :
    download_with_backoff resp 5 = ⟨true, [2, 3], 3⟩ ∧
      (download_with_backoff resp 5).sleeps.Chain' (fun a b => a < b) := by
  have hmain : download_with_backoff resp 5 = ⟨true, [2, 3], 3⟩ := by
    simp [download_with_backoff, download_with_backoff_go, h0, h1, h2, retryableCode]
  exact ⟨hmain, by
    rw [hmain]
    exact List.chain'_cons.mpr ⟨by norm_num, List.chain'_singleton _⟩⟩

theorem download_with_backoff_retries_429_witness :
    download_with_backoff (fun n => if n < 2 then .httpError 429 else .success) 5 =
        ⟨true, [2, 3], 3⟩ ∧
      (download_with_backoff (fun n => if n < 2 then .httpError 429 else .success) 5).sleeps.Chain'
        (fun a b => a < b) :=
  download_with_backoff_retries_429 _ rfl rfl rfl

/-- C3 counterexample: the claim asserts that on a first-attempt 404 the
Download Manager makes exactly one attempt and performs no sleep, but
`download_audio_file` of `fetch_duolingo_lexemes.py` (cited by the claim)
retries every exception alike: with its source default of 3 retries and a
constant 404 response it makes 3 attempts and sleeps twice. -/
theorem download_audio_file_404_retries :
    ¬ ((download_audio_file (fun _ => .httpError 404) 3).attempts = 1 ∧
        (download_audio_file (fun _ => .httpError 404) 3).sleeps = []) := by
  decide

/-- C3 (amended): for every URL whose first simulated attempt yields an HTTP
error status other than 429 and outside 500–599, `download_with_backoff`
(`download_audio_files.py`) makes exactly one attempt, performs no sleep and
returns failure; `download_audio_file` (`fetch_duolingo_lexemes.py`) instead
retries all exceptions uniformly with `2 ^ attempt` second sleeps before
reporting failure. -/
theorem download_with_backoff_other_http_error (resp : Nat → Outcome)
    (maxRetries c : Nat) (h0 : resp 0 = .httpError c) (h429 : c ≠ 429)
    (h5xx : ¬(500 ≤ c ∧ c < 600)) :
    download_with_backoff resp maxRetries = ⟨false, [], 1⟩ ∧
      download_audio_file (fun _ => .httpError 404) 3 = ⟨false, [1, 2], 3⟩ := by
  have hr : retryableCode c = false := by
    by_cases h5 : 500 ≤ c
    · have h6 : ¬ c < 600 := fun hlt => h5xx ⟨h5, hlt⟩
      simp [retryableCode, h429, h5, h6]
    · simp [retryableCode, h429, h5]
  refine ⟨?_, by decide⟩
  simp [download_with_backoff, download_with_backoff_go, h0, hr]

theorem download_with_backoff_other_http_error_witness :
    download_with_backoff (fun _ => .httpError 404) 5 = ⟨false, [], 1⟩ ∧
      download_audio_file (fun _ => .httpError 404) 3 = ⟨false, [1, 2], 3⟩ :=
  download_with_backoff_other_http_error (fun _ => .httpError 404) 5 404 rfl
    (by decide) (by decide)

/-- C9 counterexample: with the `audio_file_link` column absent from the
header, the run aborts before writing any row, but the output file was opened
with mode `w` and therefore truncated: its prior contents are not preserved. -/
theorem convert_csv_truncates_prior_output :
    (convert_csv_to_anki_format [["word".toList, "english".toList]]
        [["old".toList]]).1 ≠ [["old".toList]] := by
  decide

/-- C9 (amended): when the named URL column is absent from the input CSV's
header, `convert_csv_to_anki_format` aborts without writing any output row —
but opening the output file for writing has already truncated it, so its prior
contents are erased (the file is left empty) rather than unchanged. -/
theorem convert_csv_missing_column_aborts (header : Row) (dataRows priorOutput : List Row)
    (h : audioColName ∉ header) :
    convert_csv_to_anki_format (header :: dataRows) priorOutput = ([], false) := by
  have hidx : header.findIdx? (fun h => h == audioColName) = none := by
    induction header with
    | nil => rfl
    | cons x xs ih =>
      have hx : (x == audioColName) = false := by
        simp only [beq_eq_false_iff_ne]
        exact fun heq => h (heq ▸ List.mem_cons_self x xs)
      rw [List.findIdx?_cons, hx]
      simp [ih (fun hm => h (List.mem_cons_of_mem x hm))]
  have hdef : convert_csv_to_anki_format (header :: dataRows) priorOutput =
      match header.findIdx? (fun h => h == audioColName) with
      | none => (([] : List Row), false)
      | some idx => (dataRows.map (convertRow idx), true) := rfl
  rw [hdef, hidx]

theorem convert_csv_missing_column_aborts_witness :
    convert_csv_to_anki_format [["word".toList, "english".toList]] [["old".toList]] =
      ([], false) :=
  convert_csv_missing_column_aborts ["word".toList, "english".toList] [] [["old".toList]]
    (by decide)

/-! Helper lemmas for C8. -/

theorem getD_eq_default_of_le {α : Type} (d : α) :
    ∀ (l : List α) (i : Nat), l.length ≤ i → l.getD i d = d
  | [], i, _ => by cases i <;> rfl
  | _ :: rest, i + 1, h => by
    simpa using getD_eq_default_of_le d rest i (by simpa using h)

theorem mergeRows_length (links : List Chars) :
    ∀ (i : Nat) (rows : List Row), (mergeRows links i rows).length = rows.length
  | _, [] => rfl
  | i, _ :: rest => by simp [mergeRows, mergeRows_length links (i + 1) rest]

theorem mergeRows_data_getD (links : List Chars) :
    ∀ (rows : List Row) (k j : Nat), j < rows.length →
      (mergeRows links (k + 1) rows).getD j [] = rows.getD j [] ++ [links.getD (k + j) []]
  | [], _, j, h => absurd h (by simp)
  | row :: rest, k, 0, _ => by simp [mergeRows]
  | row :: rest, k, j + 1, h => by
    simp only [mergeRows, List.getD_cons_succ]
    rw [mergeRows_data_getD links rest (k + 1) j (by simpa using h)]
    congr 3
    omega

/-- C8: for every input CSV with a header plus N data rows and every link file
with M non-blank lines, the merge writes exactly N+1 rows, each one cell wider
than its input row; the header gains `audio_file_link`, data row i gains the
i-th non-blank stripped link line when available and `""` otherwise, and the
count-mismatch note is printed exactly when M differs from N (the rows are
written regardless). -/
theorem merge_vocabulary_row_spec (header : Row) (dataRows : List Row)
    (txtLines : List Chars) :
    (merge_vocabulary_with_audio_links (header :: dataRows) txtLines).1.length =
        dataRows.length + 1 ∧
      (merge_vocabulary_with_audio_links (header :: dataRows) txtLines).1.getD 0 [] =
        header ++ [audioColName] ∧
      (∀ i, i < dataRows.length →
        (merge_vocabulary_with_audio_links (header :: dataRows) txtLines).1.getD (i + 1) [] =
          dataRows.getD i [] ++
            [if i < (stripLines txtLines).length then (stripLines txtLines).getD i []
              else []]) ∧
      (∀ i, i < dataRows.length + 1 →
        ((merge_vocabulary_with_audio_links (header :: dataRows) txtLines).1.getD i
            []).length =
          ((header :: dataRows).getD i []).length + 1) ∧
      ((merge_vocabulary_with_audio_links (header :: dataRows) txtLines).2 = true ↔
        dataRows.length ≠ (stripLines txtLines).length) := by
  have hout : (merge_vocabulary_with_audio_links (header :: dataRows) txtLines).1 =
      (header ++ [audioColName]) :: mergeRows (stripLines txtLines) 1 dataRows := rfl
  have hdata : ∀ i, i < dataRows.length →
      (merge_vocabulary_with_audio_links (header :: dataRows) txtLines).1.getD (i + 1) [] =
        dataRows.getD i [] ++ [(stripLines txtLines).getD i []] := by
    intro i hi
    rw [hout]
    simpa using mergeRows_data_getD (stripLines txtLines) dataRows 0 i hi
  refine ⟨?_, ?_, ?_, ?_, ?_⟩
  · rw [hout]; simp [mergeRows_length]
  · rw [hout]; rfl
  · intro i hi
    rw [hdata i hi]
    by_cases hlt : i < (stripLines txtLines).length
    · simp [hlt]
    · simp only [if_neg hlt]
      rw [getD_eq_default_of_le [] (stripLines txtLines) i (by omega)]
  · intro i hi
    match i with
    | 0 => rw [hout]; simp
    | j + 1 =>
      rw [hdata j (by omega)]
      simp
  · simp only [merge_vocabulary_with_audio_links, decide_eq_true_eq, List.length_cons]
    omega

theorem merge_vocabulary_row_spec_witness :
    (merge_vocabulary_with_audio_links
          [["w".toList], ["x".toList], ["y".toList]]
          ["l1".toList, "  ".toList, " l2 ".toList]).1.getD 1 [] =
        [["x".toList], ["y".toList]].getD 0 [] ++
          [if 0 < (stripLines ["l1".toList, "  ".toList, " l2 ".toList]).length then
              (stripLines ["l1".toList, "  ".toList, " l2 ".toList]).getD 0 []
            else []] :=
  (merge_vocabulary_row_spec ["w".toList] [["x".toList], ["y".toList]]
      ["l1".toList, "  ".toList, " l2 ".toList]).2.2.1 0 (by decide)

/-! Helper lemmas for C5. -/

theorem mem_cacheInsert (c : List (Chars × Chars)) (url fn : Chars) (p : Chars × Chars)
    (hp : p ∈ cacheInsert c url fn) : p ∈ c ∨ p = (url, fn) := by
  unfold cacheInsert at hp
  split at hp
  · rcases List.mem_map.mp hp with ⟨q, hq, hpq⟩
    by_cases h : (q.1 == url) = true
    · right
      rw [if_pos h] at hpq
      rw [← hpq, beq_iff_eq.mp h]
    · left
      rw [if_neg h] at hpq
      rw [← hpq]
      exact hq
  · rcases List.mem_append.mp hp with h | h
    · exact Or.inl h
    · right; simpa using h

theorem download_all_step_cache (dl : Chars → Bool) (folder : Chars)
    (st : DownloadState) (d : LexemeData) :
    (download_all_audio_files_step dl folder st d).cache =
      if d.audio_url.isEmpty then st.cache
      else cacheInsert st.cache d.audio_url (extract_filename_from_url d.audio_url) := by
  simp only [download_all_audio_files_step]
  split
  · rfl
  · split
    · rfl
    · split <;> rfl

/-- C5 counterexample: for an entry whose download fails, the cache still maps
its URL to the derived filename even though no file was written: after the run
the cache has the entry, the failure is counted, and the target path is not on
disk. -/
theorem download_all_audio_files_failed_url_cached :
    ("http://h/a".toList, "a.mp3".toList) ∈
        (download_all_audio_files (fun _ => false) "audio_files".toList
          [⟨"w".toList, "t".toList, "http://h/a".toList⟩] ⟨[], [], 0, 0, 0⟩).cache ∧
      (download_all_audio_files (fun _ => false) "audio_files".toList
          [⟨"w".toList, "t".toList, "http://h/a".toList⟩] ⟨[], [], 0, 0, 0⟩).failed = 1 ∧
      pathJoin "audio_files".toList "a.mp3".toList ∉
        (download_all_audio_files (fun _ => false) "audio_files".toList
          [⟨"w".toList, "t".toList, "http://h/a".toList⟩] ⟨[], [], 0, 0, 0⟩).disk := by
  decide

/-- C5 (amended): `download_all_audio_files` records a cache entry for every
entry with a nonempty audio URL *before* the existence check and the download
attempt, so every cache entry (beyond the initial state's) maps some listed
URL to its derived filename — including URLs whose download failed, whose
files need not exist on disk. -/
theorem download_all_audio_files_cache_characterization (dl : Chars → Bool)
    (folder : Chars) :
    ∀ (entries : List LexemeData) (st0 : DownloadState) (p : Chars × Chars),
      p ∈ (download_all_audio_files dl folder entries st0).cache →
      p ∈ st0.cache ∨
        (p.2 = extract_filename_from_url p.1 ∧
          ∃ d ∈ entries, d.audio_url = p.1 ∧ d.audio_url ≠ [])
  | [], _, _, hp => Or.inl hp
  | d :: rest, st0, p, hp => by
    have h := download_all_audio_files_cache_characterization dl folder rest
      (download_all_audio_files_step dl folder st0 d) p hp
    rcases h with h | ⟨hfn, e, he, heq, hne⟩
    · rw [download_all_step_cache] at h
      by_cases hemp : d.audio_url.isEmpty = true
      · rw [if_pos hemp] at h
        exact Or.inl h
      · rw [if_neg hemp] at h
        rcases mem_cacheInsert _ _ _ _ h with h | h
        · exact Or.inl h
        · right
          have hurl : d.audio_url ≠ [] := fun hnil => hemp (by rw [hnil]; rfl)
          exact ⟨by rw [h], d, List.mem_cons_self d rest, by rw [h], hurl⟩
    · exact Or.inr ⟨hfn, e, List.mem_cons_of_mem d he, heq, hne⟩

theorem download_all_audio_files_cache_characterization_witness :
    ("http://h/a".toList, "a.mp3".toList) ∈
        (⟨[], [], 0, 0, 0⟩ : DownloadState).cache ∨
      (("http://h/a".toList, "a.mp3".toList).2 =
          extract_filename_from_url ("http://h/a".toList, "a.mp3".toList).1 ∧
        ∃ d ∈ [(⟨"w".toList, "t".toList, "http://h/a".toList⟩ : LexemeData)],
          d.audio_url = ("http://h/a".toList, "a.mp3".toList).1 ∧ d.audio_url ≠ []) :=
  download_all_audio_files_cache_characterization (fun _ => false) "audio_files".toList
    [⟨"w".toList, "t".toList, "http://h/a".toList⟩] ⟨[], [], 0, 0, 0⟩
    ("http://h/a".toList, "a.mp3".toList) (by decide)

/-! Helper lemma for C1. -/

theorem fetch_all_lexemes_go_spec {α : Type} (service : Nat → ApiResponse α) (L : Nat)
    (hL : 0 < L) :
    ∀ (k fuel start : Nat), k < fuel →
      (∀ i, i < k → (responseRecords (service (start + i * L))).length = L) →
      (responseRecords (service (start + k * L))).length < L →
      fetch_all_lexemes_go service L start fuel =
        (((List.range (k + 1)).map
            (fun i => responseRecords (service (start + i * L)))).flatten,
          k + 1) := by
  intro k
  induction k with
  | zero =>
    intro fuel start hf _ hshort
    match fuel, hf with
    | f + 1, _ =>
      simp only [fetch_all_lexemes_go]
      simp only [Nat.zero_mul, Nat.add_zero] at hshort
      by_cases he : (responseRecords (service start)).isEmpty = true
      · rw [if_pos he]
        have hnil : responseRecords (service start) = [] := by
          cases hrec : responseRecords (service start) with
          | nil => rfl
          | cons a l => rw [hrec] at he; simp [List.isEmpty] at he
        simp [show List.range 1 = [0] from rfl, hnil]
      · rw [if_neg he, if_pos hshort]
        simp [show List.range 1 = [0] from rfl]
  | succ k ih =>
    intro fuel start hf hfull hshort
    match fuel, hf with
    | f + 1, hf =>
      have hlen0 : (responseRecords (service start)).length = L := by
        have h := hfull 0 (Nat.succ_pos k)
        simpa using h
      have hne : ¬ (responseRecords (service start)).isEmpty = true := by
        cases hrec : responseRecords (service start) with
        | nil => rw [hrec] at hlen0; simp at hlen0; omega
        | cons a l => simp [List.isEmpty]
      have hnotlt : ¬ (responseRecords (service start)).length < L := by rw [hlen0]; omega
      have hrest := ih f (start + L) (by omega)
        (fun i hi => by
          rw [show start + L + i * L = start + (i + 1) * L by ring]
          exact hfull (i + 1) (by omega))
        (by rw [show start + L + k * L = start + (k + 1) * L by ring]; exact hshort)
      have hjoin : ((List.range (k + 1 + 1)).map
            (fun i => responseRecords (service (start + i * L)))).flatten =
          responseRecords (service start) ++
            ((List.range (k + 1)).map
              (fun i => responseRecords (service (start + L + i * L)))).flatten := by
        rw [List.range_succ_eq_map, List.map_cons, List.flatten_cons, List.map_map]
        simp only [Nat.zero_mul, Nat.add_zero]
        refine congrArg (fun l => responseRecords (service start) ++ List.flatten l) ?_
        refine List.map_congr_left (fun i _ => ?_)
        simp only [Function.comp]
        exact congrArg (fun n => responseRecords (service n))
          (by rw [Nat.succ_mul]; ring)
      simp only [fetch_all_lexemes_go]
      rw [if_neg hne, if_neg hnotlt, hrest, hjoin]

/-- C1: for every page size L and every sequence of service responses with k
full pages followed by a short (or empty) page, `fetch_all_lexemes`
accumulates the pages in response order, advancing the offset by L between
calls, and stops at the first page that is empty or strictly shorter than L,
issuing exactly k+1 calls; in particular with L = 50 and responses of 50, 50
and 30 records at offsets 0, 50 and 100 it returns exactly 130 records after
three calls and issues no fourth call. -/
theorem fetch_all_lexemes_paginates :
    (∀ (α : Type) (service : Nat → ApiResponse α) (L k fuel : Nat), 0 < L → k < fuel →
        (∀ i, i < k → (responseRecords (service (i * L))).length = L) →
        (responseRecords (service (k * L))).length < L →
        fetch_all_lexemes service L fuel =
          (((List.range (k + 1)).map (fun i => responseRecords (service (i * L)))).flatten,
            k + 1)) ∧
      (∀ (α : Type) (service : Nat → ApiResponse α) (fuel : Nat), 3 ≤ fuel →
        (responseRecords (service 0)).length = 50 →
        (responseRecords (service 50)).length = 50 →
        (responseRecords (service 100)).length = 30 →
        fetch_all_lexemes service 50 fuel =
            (responseRecords (service 0) ++
              (responseRecords (service 50) ++ (responseRecords (service 100) ++ [])),
              3) ∧
          (fetch_all_lexemes service 50 fuel).1.length = 130) := by
  have hgen : ∀ (α : Type) (service : Nat → ApiResponse α) (L k fuel : Nat), 0 < L →
      k < fuel →
      (∀ i, i < k → (responseRecords (service (i * L))).length = L) →
      (responseRecords (service (k * L))).length < L →
      fetch_all_lexemes service L fuel =
        (((List.range (k + 1)).map (fun i => responseRecords (service (i * L)))).flatten,
          k + 1) := by
    intro α service L k fuel hL hf hfull hshort
    have h := fetch_all_lexemes_go_spec service L hL k fuel 0 hf
      (fun i hi => by simpa using hfull i hi) (by simpa using hshort)
    simpa [fetch_all_lexemes] using h
  refine ⟨hgen, ?_⟩
  intro α service fuel hfuel h0 h50 h100
  have h := hgen α service 50 2 fuel (by omega) (by omega)
    (fun i hi => by
      match i, hi with
      | 0, _ => simpa using h0
      | 1, _ => simpa using h50)
    (by simpa using (by rw [h100]; omega : (responseRecords (service (2 * 50))).length < 50))
  have hr : ((List.range 3).map (fun i => responseRecords (service (i * 50)))).flatten =
      responseRecords (service 0) ++
        (responseRecords (service 50) ++ (responseRecords (service 100) ++ [])) := by
    show ((([0, 1, 2] : List Nat)).map (fun i => responseRecords (service (i * 50)))).flatten = _
    simp [List.flatten]
  rw [hr] at h
  refine ⟨h, ?_⟩
  rw [h]
  simp [h0, h50, h100]

theorem fetch_all_lexemes_paginates_witness :
    fetch_all_lexemes
          (fun i => (⟨some (List.replicate (if i = 100 then 30 else 50) 0), none⟩ :
            ApiResponse Nat)) 50 3 =
        (responseRecords (⟨some (List.replicate 50 0), none⟩ : ApiResponse Nat) ++
          (responseRecords (⟨some (List.replicate 50 0), none⟩ : ApiResponse Nat) ++
            (responseRecords (⟨some (List.replicate 30 0), none⟩ : ApiResponse Nat) ++ [])),
          3) ∧
      (fetch_all_lexemes
          (fun i => (⟨some (List.replicate (if i = 100 then 30 else 50) 0), none⟩ :
            ApiResponse Nat)) 50 3).1.length = 130 :=
  fetch_all_lexemes_paginates.2 Nat
    (fun i => ⟨some (List.replicate (if i = 100 then 30 else 50) 0), none⟩) 3
    (by omega) (by simp [responseRecords]) (by simp [responseRecords])
    (by simp [responseRecords])

/-! Helper lemmas for C7. -/

theorem mp3Ext_map_toLower : mp3Ext.map Char.toLower = mp3Ext := by decide

theorem extract_filename_endsWithMp3 (url : Chars) :
    endsWithMp3 (extract_filename_from_url url) = true := by
  unfold extract_filename_from_url
  by_cases h : endsWithMp3 (lastSlashSegment (urlparsePath url)) = true
  · rw [if_pos h]
    exact h
  · rw [if_neg h]
    unfold endsWithMp3
    rw [List.map_append, mp3Ext_map_toLower]
    exact isSuffixOf_append_self mp3Ext _

theorem extract_filename_ne_nil (url : Chars) : extract_filename_from_url url ≠ [] := by
  unfold extract_filename_from_url
  by_cases h : endsWithMp3 (lastSlashSegment (urlparsePath url)) = true
  · rw [if_pos h]
    intro hnil
    rw [hnil] at h
    exact absurd h (by decide)
  · rw [if_neg h]
    simp [mp3Ext]

theorem extract_sound_of_bracket (f : Chars) :
    extract_sound_filename (soundMarker ++ f ++ [']']) = some f := by
  unfold extract_sound_filename
  rw [List.append_assoc]
  have hp : soundMarker.isPrefixOf (soundMarker ++ (f ++ [']'])) = true :=
    isPrefixOf_append_self soundMarker (f ++ [']'])
  have hs : [']'].isSuffixOf (soundMarker ++ (f ++ [']'])) = true := by
    rw [← List.append_assoc]
    exact isSuffixOf_append_self [']'] (soundMarker ++ f)
  have hlen : decide (8 ≤ (soundMarker ++ (f ++ [']'])).length) = true := by
    simp [soundMarker]
  rw [hp, hs, hlen]
  simp only [Bool.and_self, if_true]
  have hdrop : (soundMarker ++ (f ++ [']'])).drop 7 = f ++ [']'] := by
    rw [show 7 = soundMarker.length from rfl]
    exact List.drop_left soundMarker (f ++ [']'])
  rw [hdrop]
  simp

/-- C7: for every URL the Tabular Rewriter actually rewrites (its stripped
form is nonempty), wrapping the derived filename in the `[sound:...]` playback
reference and then extracting the filename back out of the bracket syntax
yields exactly the filename produced by direct derivation from that URL. -/
theorem sound_reference_round_trip (url : Chars) (h : pyStrip url ≠ []) :
    extract_sound_filename
        (create_anki_sound_reference (extract_filename_from_url_ref url)) =
      some (extract_filename_from_url_ref url) := by
  have hfn : extract_filename_from_url_ref url = extract_filename_from_url (pyStrip url) := by
    unfold extract_filename_from_url_ref
    rw [if_neg h]
  rw [hfn]
  unfold create_anki_sound_reference
  rw [if_neg (extract_filename_ne_nil (pyStrip url))]
  exact extract_sound_of_bracket _

theorem sound_reference_round_trip_witness :
    extract_sound_filename
        (create_anki_sound_reference (extract_filename_from_url_ref "http://h/a".toList)) =
      some (extract_filename_from_url_ref "http://h/a".toList) :=
  sound_reference_round_trip "http://h/a".toList (by decide)

/-! Helper lemmas for C6: which characters can appear in a derived filename,
and when re-parsing a filename as a URL leaves it unchanged. -/

theorem mem_afterScheme (url : Chars) (a : Char) (h : a ∈ afterScheme url) :
    a ∈ preprocessURL url := by
  unfold afterScheme splitScheme at h
  cases hdw : (preprocessURL url).dropWhile (fun c => c ≠ ':') with
  | nil => rw [hdw] at h; exact h
  | cons c tail =>
    rw [hdw] at h
    cases hpre : (preprocessURL url).takeWhile (fun c => c ≠ ':') with
    | nil => rw [hpre] at h; exact h
    | cons c0 r =>
      rw [hpre] at h
      simp only [splitSchemeAux] at h
      by_cases hc : (c0.isAlpha && (c0 :: r).all schemeChar) = true
      · rw [if_pos hc] at h
        have hmem : a ∈ (preprocessURL url).dropWhile (fun c => c ≠ ':') := by
          rw [hdw]
          exact List.mem_cons_of_mem c h
        exact mem_of_mem_dropWhile _ _ _ hmem
      · rw [if_neg hc] at h; exact h

theorem mem_path_facts (url : Chars) (a : Char) (h : a ∈ (urlsplitModel url).path) :
    a ≠ '?' ∧ a ≠ '#' ∧ unsafeURLChar a = false := by
  have hpath : (urlsplitModel url).path =
      ((afterNetloc url).takeWhile (fun c => c ≠ '#')).takeWhile (fun c => c ≠ '?') := rfl
  rw [hpath] at h
  have hq' := prop_of_mem_takeWhile _ _ _ h
  have hq : a ≠ '?' := by simpa using hq'
  have h2 := mem_of_mem_takeWhile _ _ _ h
  have hh' := prop_of_mem_takeWhile _ _ _ h2
  have hh : a ≠ '#' := by simpa using hh'
  have h3 := mem_of_mem_takeWhile _ _ _ h2
  have h4 : a ∈ afterScheme url := by
    unfold afterNetloc at h3
    by_cases hcond : (afterScheme url).take 2 = ['/', '/']
    · rw [if_pos hcond] at h3
      exact List.mem_of_mem_drop (mem_of_mem_dropWhile _ _ _ h3)
    · rw [if_neg hcond] at h3
      exact h3
  have h5 := mem_afterScheme url a h4
  unfold preprocessURL removeUnsafeChars at h5
  have h6 := (List.mem_filter.mp h5).2
  simp only [Bool.not_eq_eq_eq_not, Bool.not_true] at h6
  exact ⟨hq, hh, by simpa using h6⟩

theorem mem_urlparsePath_facts (url : Chars) (a : Char) (h : a ∈ urlparsePath url) :
    a ≠ '?' ∧ a ≠ '#' ∧ unsafeURLChar a = false := by
  unfold urlparsePath at h
  by_cases hs : (urlsplitModel url).scheme ∈ usesParamsSchemes
  · rw [if_pos hs] at h
    simp only [splitParams] at h
    rcases List.mem_append.mp h with h | h
    · unfold beforeLastSlashSegment at h
      rw [List.mem_reverse] at h
      have h2 := mem_of_mem_dropWhile _ _ _ h
      rw [List.mem_reverse] at h2
      exact mem_path_facts url a h2
    · have h2 := mem_of_mem_takeWhile _ _ _ h
      unfold lastSlashSegment at h2
      rw [List.mem_reverse] at h2
      have h3 := mem_of_mem_takeWhile _ _ _ h2
      rw [List.mem_reverse] at h3
      exact mem_path_facts url a h3
  · rw [if_neg hs] at h
    exact mem_path_facts url a h

theorem mem_lastSlashSegment_facts (url : Chars) (a : Char)
    (h : a ∈ lastSlashSegment (urlparsePath url)) :
    a ≠ '/' ∧ a ∈ urlparsePath url := by
  unfold lastSlashSegment at h
  rw [List.mem_reverse] at h
  have hs' := prop_of_mem_takeWhile _ _ _ h
  have h2 := mem_of_mem_takeWhile _ _ _ h
  rw [List.mem_reverse] at h2
  exact ⟨by simpa using hs', h2⟩

theorem extract_filename_chars (url : Chars) (a : Char)
    (h : a ∈ extract_filename_from_url url) :
    a ≠ '/' ∧ a ≠ '?' ∧ a ≠ '#' ∧ unsafeURLChar a = false := by
  have hseg : ∀ b ∈ lastSlashSegment (urlparsePath url),
      b ≠ '/' ∧ b ≠ '?' ∧ b ≠ '#' ∧ unsafeURLChar b = false := by
    intro b hb
    obtain ⟨h1, h2⟩ := mem_lastSlashSegment_facts url b hb
    obtain ⟨h3, h4, h5⟩ := mem_urlparsePath_facts url b h2
    exact ⟨h1, h3, h4, h5⟩
  unfold extract_filename_from_url at h
  by_cases hm : endsWithMp3 (lastSlashSegment (urlparsePath url)) = true
  · rw [if_pos hm] at h
    exact hseg a h
  · rw [if_neg hm] at h
    rcases List.mem_append.mp h with h | h
    · exact hseg a h
    · have : a = '.' ∨ a = 'm' ∨ a = 'p' ∨ a = '3' := by simpa [mp3Ext] using h
      rcases this with rfl | rfl | rfl | rfl <;>
        exact ⟨by decide, by decide, by decide, by decide⟩

theorem lastSlashSegment_eq_self_of_no_slash (f : Chars) (h : ∀ c ∈ f, c ≠ '/') :
    lastSlashSegment f = f := by
  unfold lastSlashSegment
  rw [takeWhile_eq_self_of_all _ _
    (fun a ha => decide_eq_true (h a (List.mem_reverse.mp ha)))]
  exact List.reverse_reverse f

/-- Re-parsing a string that contains none of the URL metacharacters (and no
leading strip characters) and already carries the extension leaves it fixed
under filename derivation. -/
theorem derive_fixed (f : Chars)
    (hgood : ∀ c ∈ f, c ≠ '/' ∧ c ≠ '?' ∧ c ≠ '#' ∧ unsafeURLChar c = false)
    (hcolon : ':' ∉ f) (hsemi : ';' ∉ f)
    (hstrip : lstripControl f = f) (hmp3 : endsWithMp3 f = true) :
    extract_filename_from_url f = f := by
  have hpre : preprocessURL f = f := by
    unfold preprocessURL
    rw [hstrip]
    exact List.filter_eq_self.mpr (fun a ha => by simp [(hgood a ha).2.2.2])
  have hdwc : f.dropWhile (fun c => c ≠ ':') = [] :=
    dropWhile_eq_nil_of_all _ _
      (fun a ha => decide_eq_true (show a ≠ ':' from fun heq => hcolon (heq ▸ ha)))
  have hsch : splitScheme f = ([], f) := by
    unfold splitScheme
    rw [hdwc]
    rfl
  have hafterS : afterScheme f = f := by
    unfold afterScheme
    rw [hpre, hsch]
  have htake2 : ¬ f.take 2 = ['/', '/'] := by
    cases f with
    | nil => simp
    | cons c rest =>
      intro heq
      simp only [List.take] at heq
      have hc : c = '/' := (List.cons.injEq _ _ _ _).mp heq |>.1
      exact (hgood c (List.mem_cons_self c rest)).1 hc
  have hafterN : afterNetloc f = f := by
    unfold afterNetloc
    rw [hafterS, if_neg htake2]
  have hpath : (urlsplitModel f).path = f := by
    show ((afterNetloc f).takeWhile (fun c => c ≠ '#')).takeWhile (fun c => c ≠ '?') = f
    rw [hafterN,
      takeWhile_eq_self_of_all _ _ (fun a ha => decide_eq_true (hgood a ha).2.2.1),
      takeWhile_eq_self_of_all _ _ (fun a ha => decide_eq_true (hgood a ha).2.1)]
  have hscheme : (urlsplitModel f).scheme = [] := by
    show (splitScheme (preprocessURL f)).1 = []
    rw [hpre, hsch]
  have hnoslash : ∀ c ∈ f, c ≠ '/' := fun c hc => (hgood c hc).1
  have hdws : f.reverse.dropWhile (fun c => c ≠ '/') = [] :=
    dropWhile_eq_nil_of_all _ _
      (fun a ha => decide_eq_true (hnoslash a (List.mem_reverse.mp ha)))
  have htws : f.takeWhile (fun c => c ≠ ';') = f :=
    takeWhile_eq_self_of_all _ _
      (fun a ha => decide_eq_true (show a ≠ ';' from fun heq => hsemi (heq ▸ ha)))
  have hup : urlparsePath f = f := by
    unfold urlparsePath
    show (if (urlsplitModel f).scheme ∈ usesParamsSchemes
        then (splitParams (urlsplitModel f).path).1 else (urlsplitModel f).path) = f
    rw [hscheme, hpath, if_pos (by simp [usesParamsSchemes])]
    simp only [splitParams]
    unfold beforeLastSlashSegment
    rw [hdws, lastSlashSegment_eq_self_of_no_slash f hnoslash, htws]
    rfl
  unfold extract_filename_from_url
  rw [hup, lastSlashSegment_eq_self_of_no_slash f hnoslash, if_pos hmp3]

/-- C6 counterexample: derivation is not idempotent.  For the URL
`https://h/a:b` the derived filename is `a:b.mp3`; re-deriving from that
string parses `a` as a URL scheme and yields `b.mp3`. -/
theorem extract_filename_not_idempotent :
    extract_filename_from_url (extract_filename_from_url "https://h/a:b".toList) ≠
      extract_filename_from_url "https://h/a:b".toList := by
  decide

/-- C6 (amended): filename derivation is idempotent for every URL whose
derived filename contains no colon and no semicolon and does not start with a
control character or space (re-parsing such a filename as a URL strips a
scheme, params, or leading characters, which is what breaks idempotence in
general); within one application, a final segment already ending
case-insensitively in `.mp3` is returned unchanged and otherwise the extension
is appended exactly once. -/
theorem extract_filename_idempotent_restricted (url : Chars)
    (hcolon : ':' ∉ extract_filename_from_url url)
    (hsemi : ';' ∉ extract_filename_from_url url)
    (hstrip : lstripControl (extract_filename_from_url url) =
      extract_filename_from_url url) :
    extract_filename_from_url (extract_filename_from_url url) =
      extract_filename_from_url url :=
  derive_fixed _ (extract_filename_chars url) hcolon hsemi hstrip
    (extract_filename_endsWithMp3 url)

theorem extract_filename_idempotent_restricted_witness :
    extract_filename_from_url (extract_filename_from_url "https://host/x/a.mp3".toList) =
      extract_filename_from_url "https://host/x/a.mp3".toList :=
  extract_filename_idempotent_restricted "https://host/x/a.mp3".toList
    (by decide) (by decide) (by decide)

/-! Helper lemmas for C10: the parsed path of `base ++ sep :: rest` does not
depend on `rest` when `sep` is `?` or `#`. -/

theorem all_of_dropWhile_eq_nil {α : Type} (p : α → Bool) (xs : List α)
    (h : xs.dropWhile p = []) : ∀ x ∈ xs, p x = true := by
  induction xs with
  | nil => intro x hx; cases hx
  | cons a l ih =>
    intro x hx
    simp only [List.dropWhile] at h
    cases hp : p a with
    | false => rw [hp] at h; exact absurd h (by simp)
    | true =>
      rw [hp] at h
      rcases List.mem_cons.mp hx with rfl | hx
      · exact hp
      · exact ih h x hx

theorem preprocess_append_sep (base q : Chars) (sep : Char)
    (hc0 : c0OrSpace sep = false) (hu : unsafeURLChar sep = false) :
    preprocessURL (base ++ sep :: q) =
      preprocessURL base ++ sep :: removeUnsafeChars q := by
  unfold preprocessURL lstripControl removeUnsafeChars
  rw [dropWhile_append_cons_of_neg _ _ _ _ hc0, List.filter_append]
  simp [hu]

theorem splitScheme_append_sep (X q1 q2 : Chars) (sep : Char)
    (hcolon : sep ≠ ':') (hsch : schemeChar sep = false) :
    (splitScheme (X ++ sep :: q1)).1 = (splitScheme (X ++ sep :: q2)).1 ∧
      ∃ X', (splitScheme (X ++ sep :: q1)).2 = X' ++ sep :: q1 ∧
        (splitScheme (X ++ sep :: q2)).2 = X' ++ sep :: q2 := by
  have hpsep : (fun c => decide (c ≠ ':')) sep = true := decide_eq_true hcolon
  cases hdw : X.dropWhile (fun c => c ≠ ':') with
  | nil =>
    have hall := all_of_dropWhile_eq_nil _ _ hdw
    have hrest : ∀ q : Chars, (X ++ sep :: q).dropWhile (fun c => c ≠ ':') =
        q.dropWhile (fun c => c ≠ ':') := by
      intro q
      rw [dropWhile_append_of_all _ _ _ hall]
      simp only [List.dropWhile, hpsep]
    have hpre : ∀ q : Chars, (X ++ sep :: q).takeWhile (fun c => c ≠ ':') =
        X ++ sep :: q.takeWhile (fun c => c ≠ ':') := by
      intro q
      rw [takeWhile_append_of_all _ _ _ hall]
      simp only [List.takeWhile, hpsep]
    have haux : ∀ q : Chars, splitScheme (X ++ sep :: q) = ([], X ++ sep :: q) := by
      intro q
      unfold splitScheme
      rw [hrest q, hpre q]
      cases hq : q.dropWhile (fun c => c ≠ ':') with
      | nil => rfl
      | cons c t =>
        cases X with
        | nil =>
          simp only [List.nil_append, splitSchemeAux, List.all_cons, hsch,
            Bool.and_false, Bool.false_and]
          rfl
        | cons x X0 =>
          simp only [List.cons_append, splitSchemeAux]
          have hallf : (x :: (X0 ++ sep :: q.takeWhile (fun c => c ≠ ':'))).all schemeChar
              = false := by
            cases hb : (x :: (X0 ++ sep :: q.takeWhile (fun c => c ≠ ':'))).all schemeChar
            · rfl
            · have hmem : sep ∈ x :: (X0 ++ sep :: q.takeWhile (fun c => c ≠ ':')) := by
                simp
              have := List.all_eq_true.mp hb sep hmem
              rw [hsch] at this
              exact absurd this (by simp)
          rw [hallf]
          simp
    exact ⟨by rw [haux q1, haux q2], X, by rw [haux q1], by rw [haux q2]⟩
  | cons c tail =>
    have hc : c = ':' := by simpa using head_prop_of_dropWhile_cons _ _ _ _ hdw
    have hXdecomp : X = X.takeWhile (fun c => c ≠ ':') ++ c :: tail := by
      conv_lhs => rw [← takeWhile_append_dropWhile_self (fun c => (c ≠ ':' : Bool)) X]
      rw [hdw]
    have hall₁ : ∀ x ∈ X.takeWhile (fun c => c ≠ ':'),
        (fun c => decide (c ≠ ':')) x = true :=
      fun x hx => prop_of_mem_takeWhile (fun c => (c ≠ ':' : Bool)) X x hx
    have hpc : (fun c' => decide (c' ≠ ':')) c = false := by rw [hc]; decide
    have hassoc : ∀ q : Chars, X ++ sep :: q =
        X.takeWhile (fun c => c ≠ ':') ++ c :: (tail ++ sep :: q) := by
      intro q
      conv_lhs => rw [hXdecomp]
      simp
    have hpre : ∀ q : Chars, (X ++ sep :: q).takeWhile (fun c => c ≠ ':') =
        X.takeWhile (fun c => c ≠ ':') := by
      intro q
      rw [hassoc q,
        takeWhile_append_cons_of_neg (fun c => (c ≠ ':' : Bool))
          (X.takeWhile (fun c => c ≠ ':')) c (tail ++ sep :: q) hpc,
        takeWhile_eq_self_of_all _ _ hall₁]
    have hrest : ∀ q : Chars, (X ++ sep :: q).dropWhile (fun c => c ≠ ':') =
        c :: (tail ++ sep :: q) := by
      intro q
      rw [hassoc q,
        dropWhile_append_cons_of_neg (fun c => (c ≠ ':' : Bool))
          (X.takeWhile (fun c => c ≠ ':')) c (tail ++ sep :: q) hpc,
        dropWhile_eq_nil_of_all _ _ hall₁]
      rfl
    cases hX1 : X.takeWhile (fun c => c ≠ ':') with
    | nil =>
      have haux : ∀ q : Chars, splitScheme (X ++ sep :: q) = ([], X ++ sep :: q) := by
        intro q
        unfold splitScheme
        rw [hpre q, hrest q, hX1]
        rfl
      exact ⟨by rw [haux q1, haux q2], X, by rw [haux q1], by rw [haux q2]⟩
    | cons c0 r =>
      by_cases hcond : (c0.isAlpha && (c0 :: r).all schemeChar) = true
      · have haux : ∀ q : Chars, splitScheme (X ++ sep :: q) =
            ((c0 :: r).map Char.toLower, tail ++ sep :: q) := by
          intro q
          unfold splitScheme
          rw [hpre q, hrest q, hX1]
          simp only [splitSchemeAux, hcond, if_true]
        exact ⟨by rw [haux q1, haux q2], tail, by rw [haux q1], by rw [haux q2]⟩
      · have haux : ∀ q : Chars, splitScheme (X ++ sep :: q) = ([], X ++ sep :: q) := by
          intro q
          unfold splitScheme
          rw [hpre q, hrest q, hX1]
          simp only [splitSchemeAux]
          rw [if_neg hcond]
        exact ⟨by rw [haux q1, haux q2], X, by rw [haux q1], by rw [haux q2]⟩

theorem netloc_strip_append_sep (Y q1 q2 : Chars) (sep : Char)
    (hnc : netlocChar sep = false) (hslash : sep ≠ '/') :
    ∃ Z,
      (if (Y ++ sep :: q1).take 2 = ['/', '/']
          then ((Y ++ sep :: q1).drop 2).dropWhile netlocChar else Y ++ sep :: q1) =
        Z ++ sep :: q1 ∧
      (if (Y ++ sep :: q2).take 2 = ['/', '/']
          then ((Y ++ sep :: q2).drop 2).dropWhile netlocChar else Y ++ sep :: q2) =
        Z ++ sep :: q2 := by
  rcases Y with _ | ⟨a, _ | ⟨b, Y0⟩⟩
  · have hcond : ∀ q : Chars, ¬ (([] ++ sep :: q).take 2 = ['/', '/']) := by
      intro q h
      have h2 : sep :: q.take 1 = ['/', '/'] := by simpa using h
      exact hslash ((List.cons.injEq _ _ _ _).mp h2).1
    exact ⟨[], by rw [if_neg (hcond q1)], by rw [if_neg (hcond q2)]⟩
  · have hcond : ∀ q : Chars, ¬ (([a] ++ sep :: q).take 2 = ['/', '/']) := by
      intro q h
      have h2 : a :: sep :: q.take 0 = ['/', '/'] := by simpa using h
      have h3 := ((List.cons.injEq _ _ _ _).mp h2).2
      exact hslash ((List.cons.injEq _ _ _ _).mp h3).1
    exact ⟨[a], by rw [if_neg (hcond q1)], by rw [if_neg (hcond q2)]⟩
  · have htake : ∀ q : Chars, ((a :: b :: Y0) ++ sep :: q).take 2 = [a, b] := fun _ => rfl
    have hdrop : ∀ q : Chars, ((a :: b :: Y0) ++ sep :: q).drop 2 = Y0 ++ sep :: q :=
      fun _ => rfl
    by_cases hc : ([a, b] : Chars) = ['/', '/']
    · refine ⟨Y0.dropWhile netlocChar, ?_, ?_⟩ <;>
        rw [if_pos (by rw [htake]; exact hc), hdrop,
          dropWhile_append_cons_of_neg _ _ _ _ hnc]
    · refine ⟨a :: b :: Y0, ?_, ?_⟩ <;>
        rw [if_neg (by rw [htake]; exact hc)]

theorem path_append_sharp (Z q1 q2 : Chars) :
    ((Z ++ '#' :: q1).takeWhile (fun c => c ≠ '#')).takeWhile (fun c => c ≠ '?') =
      ((Z ++ '#' :: q2).takeWhile (fun c => c ≠ '#')).takeWhile (fun c => c ≠ '?') := by
  rw [takeWhile_append_cons_of_neg _ _ _ _ (by decide),
    takeWhile_append_cons_of_neg _ _ _ _ (by decide)]

theorem path_append_quest (Z q1 q2 : Chars) :
    ((Z ++ '?' :: q1).takeWhile (fun c => c ≠ '#')).takeWhile (fun c => c ≠ '?') =
      ((Z ++ '?' :: q2).takeWhile (fun c => c ≠ '#')).takeWhile (fun c => c ≠ '?') := by
  cases hdw : Z.dropWhile (fun c => c ≠ '#') with
  | nil =>
    have hall := all_of_dropWhile_eq_nil _ _ hdw
    have h1 : ∀ q : Chars, (Z ++ '?' :: q).takeWhile (fun c => c ≠ '#') =
        Z ++ '?' :: q.takeWhile (fun c => c ≠ '#') := by
      intro q
      rw [takeWhile_append_of_all _ _ _ hall]
      simp [List.takeWhile]
    rw [h1 q1, h1 q2, takeWhile_append_cons_of_neg _ _ _ _ (by decide),
      takeWhile_append_cons_of_neg _ _ _ _ (by decide)]
  | cons c t =>
    have hc : c = '#' := by simpa using head_prop_of_dropWhile_cons _ _ _ _ hdw
    have hZdecomp : Z = Z.takeWhile (fun c => c ≠ '#') ++ c :: t := by
      conv_lhs => rw [← takeWhile_append_dropWhile_self (fun c => (c ≠ '#' : Bool)) Z]
      rw [hdw]
    have hall₁ : ∀ x ∈ Z.takeWhile (fun c => c ≠ '#'),
        (fun c => decide (c ≠ '#')) x = true :=
      fun x hx => prop_of_mem_takeWhile (fun c => (c ≠ '#' : Bool)) Z x hx
    have hpc : (fun c' => decide (c' ≠ '#')) c = false := by rw [hc]; decide
    have h1 : ∀ q : Chars, (Z ++ '?' :: q).takeWhile (fun c => c ≠ '#') =
        Z.takeWhile (fun c => c ≠ '#') := by
      intro q
      conv_lhs => rw [hZdecomp]
      rw [show (Z.takeWhile (fun c => c ≠ '#') ++ c :: t) ++ '?' :: q =
          Z.takeWhile (fun c => c ≠ '#') ++ c :: (t ++ '?' :: q) by simp,
        takeWhile_append_cons_of_neg (fun c => (c ≠ '#' : Bool))
          (Z.takeWhile (fun c => c ≠ '#')) c (t ++ '?' :: q) hpc,
        takeWhile_eq_self_of_all _ _ hall₁]
    rw [h1 q1, h1 q2]

theorem urlsplit_append_sep_eq (base q1 q2 : Chars) (sep : Char)
    (hsep : sep = '?' ∨ sep = '#') :
    (urlsplitModel (base ++ sep :: q1)).scheme =
        (urlsplitModel (base ++ sep :: q2)).scheme ∧
      (urlsplitModel (base ++ sep :: q1)).path =
        (urlsplitModel (base ++ sep :: q2)).path := by
  have hc0 : c0OrSpace sep = false := by rcases hsep with rfl | rfl <;> decide
  have hu : unsafeURLChar sep = false := by rcases hsep with rfl | rfl <;> decide
  have hcolon : sep ≠ ':' := by rcases hsep with rfl | rfl <;> decide
  have hschc : schemeChar sep = false := by rcases hsep with rfl | rfl <;> decide
  have hnc : netlocChar sep = false := by rcases hsep with rfl | rfl <;> decide
  have hslash : sep ≠ '/' := by rcases hsep with rfl | rfl <;> decide
  have hprep : ∀ q : Chars, preprocessURL (base ++ sep :: q) =
      preprocessURL base ++ sep :: removeUnsafeChars q :=
    fun q => preprocess_append_sep base q sep hc0 hu
  obtain ⟨hs1, X', hX1, hX2⟩ := splitScheme_append_sep (preprocessURL base)
    (removeUnsafeChars q1) (removeUnsafeChars q2) sep hcolon hschc
  have hscheme : (urlsplitModel (base ++ sep :: q1)).scheme =
      (urlsplitModel (base ++ sep :: q2)).scheme := by
    show (splitScheme (preprocessURL (base ++ sep :: q1))).1 =
      (splitScheme (preprocessURL (base ++ sep :: q2))).1
    rw [hprep q1, hprep q2]
    exact hs1
  have haS1 : afterScheme (base ++ sep :: q1) = X' ++ sep :: removeUnsafeChars q1 := by
    unfold afterScheme
    rw [hprep q1]
    exact hX1
  have haS2 : afterScheme (base ++ sep :: q2) = X' ++ sep :: removeUnsafeChars q2 := by
    unfold afterScheme
    rw [hprep q2]
    exact hX2
  obtain ⟨Z, hZ1, hZ2⟩ := netloc_strip_append_sep X' (removeUnsafeChars q1)
    (removeUnsafeChars q2) sep hnc hslash
  have hN1 : afterNetloc (base ++ sep :: q1) = Z ++ sep :: removeUnsafeChars q1 := by
    unfold afterNetloc
    rw [haS1]
    exact hZ1
  have hN2 : afterNetloc (base ++ sep :: q2) = Z ++ sep :: removeUnsafeChars q2 := by
    unfold afterNetloc
    rw [haS2]
    exact hZ2
  refine ⟨hscheme, ?_⟩
  show ((afterNetloc (base ++ sep :: q1)).takeWhile (fun c => c ≠ '#')).takeWhile
      (fun c => c ≠ '?') =
    ((afterNetloc (base ++ sep :: q2)).takeWhile (fun c => c ≠ '#')).takeWhile
      (fun c => c ≠ '?')
  rw [hN1, hN2]
  rcases hsep with rfl | rfl
  · exact path_append_quest Z _ _
  · exact path_append_sharp Z _ _

/-- C10: filename derivation depends only on the URL's parsed path component —
two URLs with equal paths derive the same filename — and in particular
appending different query strings (after `?`) or fragments (after `#`) to a
common prefix never changes the derived filename, so such distinct remote URLs
map to the same cached file. -/
theorem extract_filename_path_only :
    (∀ u1 u2 : Chars, urlparsePath u1 = urlparsePath u2 →
        extract_filename_from_url u1 = extract_filename_from_url u2) ∧
      (∀ base x y : Chars, extract_filename_from_url (base ++ '?' :: x) =
        extract_filename_from_url (base ++ '?' :: y)) ∧
      (∀ base x y : Chars, extract_filename_from_url (base ++ '#' :: x) =
        extract_filename_from_url (base ++ '#' :: y)) := by
  have hup : ∀ (base x y : Chars) (sep : Char), sep = '?' ∨ sep = '#' →
      urlparsePath (base ++ sep :: x) = urlparsePath (base ++ sep :: y) := by
    intro base x y sep hsep
    obtain ⟨hs, hp⟩ := urlsplit_append_sep_eq base x y sep hsep
    unfold urlparsePath
    show (if (urlsplitModel (base ++ sep :: x)).scheme ∈ usesParamsSchemes
        then (splitParams (urlsplitModel (base ++ sep :: x)).path).1
        else (urlsplitModel (base ++ sep :: x)).path) =
      (if (urlsplitModel (base ++ sep :: y)).scheme ∈ usesParamsSchemes
        then (splitParams (urlsplitModel (base ++ sep :: y)).path).1
        else (urlsplitModel (base ++ sep :: y)).path)
    rw [hs, hp]
  refine ⟨?_, ?_, ?_⟩
  · intro u1 u2 h
    unfold extract_filename_from_url
    rw [h]
  · intro base x y
    unfold extract_filename_from_url
    rw [hup base x y '?' (Or.inl rfl)]
  · intro base x y
    unfold extract_filename_from_url
    rw [hup base x y '#' (Or.inr rfl)]

theorem extract_filename_path_only_witness :
    extract_filename_from_url "http://h/a?x=1".toList =
      extract_filename_from_url "http://h/a#frag".toList :=
  extract_filename_path_only.1 "http://h/a?x=1".toList "http://h/a#frag".toList (by decide)

/-! Helper lemmas for C4. -/

def exceptOk {ε α : Type} : Except ε α → Bool
  | .ok _ => true
  | .error _ => false

theorem except_ok_bind {α β : Type} (a : α) (f : α → Except Unit β) :
    (Except.ok a >>= f) = f a := rfl

theorem except_error_bind {α β : Type} (f : α → Except Unit β) :
    ((Except.error () : Except Unit α) >>= f) = .error () := rfl

theorem except_pure_bind {α β : Type} (a : α) (f : α → Except Unit β) :
    ((pure a : Except Unit α) >>= f) = f a := rfl

theorem except_pure_eq_ok {α : Type} (a : α) : (pure a : Except Unit α) = .ok a := rfl

theorem wordExpr_ok (fields lfs : List (String × JVal)) :
    ∃ w, wordExpr (.obj fields) (.obj lfs) = .ok w := by
  unfold wordExpr
  rw [show dictGet (.obj lfs) "word" (.str "") =
      .ok ((jlookup lfs "word").getD (.str "")) from rfl, except_ok_bind]
  unfold pyOrElse
  by_cases h1 : truthy ((jlookup lfs "word").getD (.str "")) = true
  · rw [if_pos h1]
    exact ⟨_, rfl⟩
  · rw [if_neg h1,
      show dictGet (.obj fields) "word" (.str "") =
        .ok ((jlookup fields "word").getD (.str "")) from rfl, except_ok_bind]
    by_cases h2 : truthy ((jlookup fields "word").getD (.str "")) = true
    · rw [if_pos h2]
      exact ⟨_, rfl⟩
    · rw [if_neg h2]
      exact ⟨_, rfl⟩

theorem wordExpr_error_of_not_obj (lexeme v : JVal) (h : isObjJ v = false) :
    wordExpr lexeme v = .error () := by
  cases v with
  | obj fs => simp [isObjJ] at h
  | str s => rfl
  | int n => rfl
  | list l => rfl
  | null => rfl

/-- The condition under which the translation line evaluates without raising:
one of the two direct lookups is truthy, or the `translations` fallback (which
defaults to `['']`) is indexable at 0. -/
def translationOkCond (fields lfs : List (String × JVal)) : Bool :=
  truthy ((jlookup lfs "translation").getD (.str "")) ||
    truthy ((jlookup fields "translation").getD (.str "")) ||
    (match jlookup fields "translations" with
      | some t => indexableAtZero t
      | none => true)

theorem translationExpr_isOk (fields lfs : List (String × JVal)) :
    exceptOk (translationExpr (.obj fields) (.obj lfs)) = translationOkCond fields lfs := by
  unfold translationExpr translationOkCond
  rw [show dictGet (.obj lfs) "translation" (.str "") =
      .ok ((jlookup lfs "translation").getD (.str "")) from rfl, except_ok_bind]
  unfold pyOrElse
  by_cases h1 : truthy ((jlookup lfs "translation").getD (.str "")) = true
  · rw [if_pos h1, h1]
    simp [exceptOk]
  · rw [if_neg h1,
      show dictGet (.obj fields) "translation" (.str "") =
        .ok ((jlookup fields "translation").getD (.str "")) from rfl, except_ok_bind]
    have h1' : truthy ((jlookup lfs "translation").getD (.str "")) = false := by
      revert h1
      cases truthy ((jlookup lfs "translation").getD (.str "")) <;> simp
    rw [h1']
    by_cases h2 : truthy ((jlookup fields "translation").getD (.str "")) = true
    · rw [if_pos h2, h2]
      simp [exceptOk]
    · have h2' : truthy ((jlookup fields "translation").getD (.str "")) = false := by
        revert h2
        cases truthy ((jlookup fields "translation").getD (.str "")) <;> simp
      rw [if_neg h2, h2',
        show dictGet (.obj fields) "translations" (.list [.str ""]) =
          .ok ((jlookup fields "translations").getD (.list [.str ""])) from rfl,
        except_ok_bind]
      simp only [Bool.false_or]
      cases hts : jlookup fields "translations" with
      | none => simp [Option.getD, pyIndexZero, exceptOk]
      | some t =>
        simp only [Option.getD_some]
        cases t with
        | list l =>
          cases l with
          | nil => simp [pyIndexZero, exceptOk, indexableAtZero]
          | cons x xs => simp [pyIndexZero, exceptOk, indexableAtZero]
        | str s =>
          by_cases hs : s = ""
          · subst hs
            simp [pyIndexZero, exceptOk, indexableAtZero]
          · simp [pyIndexZero, exceptOk, indexableAtZero, hs]
        | int n => simp [pyIndexZero, exceptOk, indexableAtZero]
        | obj fs => simp [pyIndexZero, exceptOk, indexableAtZero]
        | null => simp [pyIndexZero, exceptOk, indexableAtZero]

theorem translationsBad_eq (fields : List (String × JVal)) :
    translationsBad fields = !translationOkCond fields (lexObjFields fields) := by
  unfold translationsBad translationOkCond
  by_cases h : (truthy ((jlookup (lexObjFields fields) "translation").getD (.str "")) ||
      truthy ((jlookup fields "translation").getD (.str ""))) = true
  · rw [if_pos h]
    rcases Bool.or_eq_true_iff.mp h with h1 | h1 <;> simp [h1]
  · rw [if_neg h]
    have hfb : (truthy ((jlookup (lexObjFields fields) "translation").getD (.str "")) ||
        truthy ((jlookup fields "translation").getD (.str ""))) = false := by
      cases hb : (truthy ((jlookup (lexObjFields fields) "translation").getD (.str "")) ||
          truthy ((jlookup fields "translation").getD (.str "")))
      · rfl
      · exact absurd hb h
    have h' := Bool.or_eq_false_iff.mp hfb
    rw [h'.1, h'.2]
    cases hts : jlookup fields "translations" with
    | none => simp
    | some t => simp

theorem audioExpr_ok (fields : List (String × JVal))
    (h : ∀ v, jlookup fields "lexeme" = some v → ∃ fs, v = .obj fs) :
    ∃ a, audioExpr (.obj fields) = .ok a := by
  cases hlex : jlookup fields "lexeme" with
  | none =>
    cases haud : jlookup fields "audio" <;> cases htts : jlookup fields "tts" <;>
      simp [audioExpr, pyContains, pySubscript, hlex, haud, htts,
        except_ok_bind, except_pure_bind, except_pure_eq_ok]
  | some v =>
    obtain ⟨lfs, rfl⟩ := h v hlex
    cases haud : jlookup lfs "audio" <;> cases haud2 : jlookup fields "audio" <;>
      cases htts : jlookup fields "tts" <;> cases htts2 : jlookup lfs "tts" <;>
        simp [audioExpr, pyContains, pySubscript, hlex, haud, haud2, htts, htts2,
          except_ok_bind, except_pure_bind, except_pure_eq_ok]

theorem extract_core (fields lfs : List (String × JVal))
    (hgood : ∀ v, jlookup fields "lexeme" = some v → ∃ fs, v = .obj fs) :
    exceptOk (wordExpr (.obj fields) (.obj lfs) >>= fun word =>
        translationExpr (.obj fields) (.obj lfs) >>= fun translation =>
        audioExpr (.obj fields) >>= fun audio =>
        (pure ⟨word, translation, audio⟩ : Except Unit LexemeTriple)) =
      translationOkCond fields lfs := by
  obtain ⟨w, hw⟩ := wordExpr_ok fields lfs
  rw [hw, except_ok_bind]
  cases htr : translationExpr (.obj fields) (.obj lfs) with
  | error e =>
    cases e
    rw [except_error_bind]
    have h2 := translationExpr_isOk fields lfs
    rw [htr] at h2
    exact h2
  | ok t =>
    rw [except_ok_bind]
    obtain ⟨a, ha⟩ := audioExpr_ok fields hgood
    rw [ha, except_ok_bind]
    have h2 := translationExpr_isOk fields lfs
    rw [htr] at h2
    exact h2

/-- C4 counterexample: extraction is not total.  On the record
`{"translations": []}` both direct translation lookups are falsy and the
final fallback indexes an empty list, so `extract_lexeme_data` raises
(IndexError in the Python source). -/
theorem extract_lexeme_data_raises_on_empty_translations :
    extract_lexeme_data (.obj [("translations", .list [])]) = .error () := rfl

/-- C4 (amended): extraction returns a LexemeEntry without raising for every
key/value document except exactly when the `lexeme` key is bound to a
non-dictionary, or when both direct translation lookups are falsy and a
`translations` key is bound to a value with no element at index 0 (such as an
empty list), in which case it raises; when all fallback keys are absent it
returns with word, translation and audio all the empty string. -/
theorem extract_lexeme_data_characterization :
    (∀ fields : List (String × JVal),
        exceptOk (extract_lexeme_data (.obj fields)) = !extractionRaises fields) ∧
      (∀ fields : List (String × JVal),
        jlookup fields "lexeme" = none → jlookup fields "word" = none →
        jlookup fields "learningWord" = none → jlookup fields "translation" = none →
        jlookup fields "translations" = none → jlookup fields "audio" = none →
        jlookup fields "tts" = none →
        extract_lexeme_data (.obj fields) = .ok ⟨.str "", .str "", .str ""⟩) := by
  constructor
  · intro fields
    have hraise : extractionRaises fields =
        (lexemeFieldBad fields || translationsBad fields) := rfl
    cases hlex : jlookup fields "lexeme" with
    | none =>
      have hlfs : lexObjFields fields = [] := by
        unfold lexObjFields
        rw [hlex]
      have hbad : lexemeFieldBad fields = false := by
        unfold lexemeFieldBad
        rw [hlex]
      have hstep : extract_lexeme_data (.obj fields) =
          (wordExpr (.obj fields) (.obj []) >>= fun word =>
            translationExpr (.obj fields) (.obj []) >>= fun translation =>
            audioExpr (.obj fields) >>= fun audio => pure ⟨word, translation, audio⟩) := by
        unfold extract_lexeme_data
        rw [show dictGet (.obj fields) "lexeme" (.obj []) =
            .ok ((jlookup fields "lexeme").getD (.obj [])) from rfl, except_ok_bind, hlex]
        rfl
      rw [hstep,
        extract_core fields [] (fun v hv => absurd (hlex ▸ hv) (by simp)),
        hraise, hbad, translationsBad_eq, hlfs]
      simp
    | some v =>
      cases v with
      | obj lfs =>
        have hlfs : lexObjFields fields = lfs := by
          unfold lexObjFields
          rw [hlex]
        have hbad : lexemeFieldBad fields = false := by
          unfold lexemeFieldBad
          rw [hlex]
          rfl
        have hstep : extract_lexeme_data (.obj fields) =
            (wordExpr (.obj fields) (.obj lfs) >>= fun word =>
              translationExpr (.obj fields) (.obj lfs) >>= fun translation =>
              audioExpr (.obj fields) >>= fun audio => pure ⟨word, translation, audio⟩) := by
          unfold extract_lexeme_data
          rw [show dictGet (.obj fields) "lexeme" (.obj []) =
              .ok ((jlookup fields "lexeme").getD (.obj [])) from rfl, except_ok_bind, hlex]
          rfl
        rw [hstep,
          extract_core fields lfs
            (fun v hv => ⟨lfs, by rw [hlex] at hv; exact (Option.some.injEq _ _).mp hv |>.symm⟩),
          hraise, hbad, translationsBad_eq, hlfs]
        simp
      | str s =>
        have hbad : lexemeFieldBad fields = true := by
          unfold lexemeFieldBad
          rw [hlex]
          rfl
        have hstep : extract_lexeme_data (.obj fields) = .error () := by
          unfold extract_lexeme_data
          rw [show dictGet (.obj fields) "lexeme" (.obj []) =
              .ok ((jlookup fields "lexeme").getD (.obj [])) from rfl, except_ok_bind, hlex,
            Option.getD_some, wordExpr_error_of_not_obj _ _ (by rfl), except_error_bind]
        rw [hstep, hraise, hbad]
        rfl
      | int n =>
        have hbad : lexemeFieldBad fields = true := by
          unfold lexemeFieldBad
          rw [hlex]
          rfl
        have hstep : extract_lexeme_data (.obj fields) = .error () := by
          unfold extract_lexeme_data
          rw [show dictGet (.obj fields) "lexeme" (.obj []) =
              .ok ((jlookup fields "lexeme").getD (.obj [])) from rfl, except_ok_bind, hlex,
            Option.getD_some, wordExpr_error_of_not_obj _ _ (by rfl), except_error_bind]
        rw [hstep, hraise, hbad]
        rfl
      | list l =>
        have hbad : lexemeFieldBad fields = true := by
          unfold lexemeFieldBad
          rw [hlex]
          rfl
        have hstep : extract_lexeme_data (.obj fields) = .error () := by
          unfold extract_lexeme_data
          rw [show dictGet (.obj fields) "lexeme" (.obj []) =
              .ok ((jlookup fields "lexeme").getD (.obj [])) from rfl, except_ok_bind, hlex,
            Option.getD_some, wordExpr_error_of_not_obj _ _ (by rfl), except_error_bind]
        rw [hstep, hraise, hbad]
        rfl
      | null =>
        have hbad : lexemeFieldBad fields = true := by
          unfold lexemeFieldBad
          rw [hlex]
          rfl
        have hstep : extract_lexeme_data (.obj fields) = .error () := by
          unfold extract_lexeme_data
          rw [show dictGet (.obj fields) "lexeme" (.obj []) =
              .ok ((jlookup fields "lexeme").getD (.obj [])) from rfl, except_ok_bind, hlex,
            Option.getD_some, wordExpr_error_of_not_obj _ _ (by rfl), except_error_bind]
        rw [hstep, hraise, hbad]
        rfl
  · intro fields hlex hword hlearn htrans htranss haud htts
    unfold extract_lexeme_data wordExpr translationExpr audioExpr
    rw [show dictGet (.obj fields) "lexeme" (.obj []) =
        .ok ((jlookup fields "lexeme").getD (.obj [])) from rfl, except_ok_bind, hlex]
    simp [dictGet, pyOrElse, pyContains, pySubscript, pyIndexZero, truthy,
      except_ok_bind, except_pure_bind, except_pure_eq_ok, hlex, hword, hlearn, htrans,
      htranss, haud, htts, jlookup, Functor.map, Except.map]

theorem extract_lexeme_data_characterization_witness :
    (jlookup ([("foo", JVal.str "bar")]) "lexeme" = none ∧
        jlookup ([("foo", JVal.str "bar")]) "word" = none ∧
        jlookup ([("foo", JVal.str "bar")]) "learningWord" = none ∧
        jlookup ([("foo", JVal.str "bar")]) "translation" = none ∧
        jlookup ([("foo", JVal.str "bar")]) "translations" = none ∧
        jlookup ([("foo", JVal.str "bar")]) "audio" = none ∧
        jlookup ([("foo", JVal.str "bar")]) "tts" = none) ∧
      extract_lexeme_data (.obj [("foo", JVal.str "bar")]) =
        .ok ⟨.str "", .str "", .str ""⟩ :=
  ⟨⟨rfl, rfl, rfl, rfl, rfl, rfl, rfl⟩,
    extract_lexeme_data_characterization.2 [("foo", JVal.str "bar")]
      rfl rfl rfl rfl rfl rfl rfl⟩

end DuolingoAnki
